import Mathlib

/-
Verification of the AntennaPattern library specification.

The repository ships the library's documentation (README), data-file format
examples and host programs (a demo radar-coverage application), while the
implementation translation here follows the specification's component design.
All numeric state is modelled with exact rationals; the dB <-> linear helpers
and the magnitude/phase -> complex conversion, which the specification lists
as external pure-function collaborators, are taken as function parameters.
-/

namespace AntennaPattern

/-- Modelled from the spec: the missing core sources do not ship the sentinel
constant; `src/README.md` ("错误处理") states that invalid queries return
`SMALL_DB_VAL`, usually -999 dB, so the model fixes the sentinel at -999. -/
def SMALL_DB : ℚ := -999

/-- Modelled from the spec: the angle constant pi used by the missing core
(`M_PI` in the C++ sources), as the exact rational value of that double. -/
def PI : ℚ := 3141592653589793 / 1000000000000000

/-- Modelled from the spec: the natural logarithm of 2 used by the Gauss
model, as the exact rational value of the double constant. -/
def LN2 : ℚ := 6931471805599453 / 10000000000000000

/-- Modelled from the spec: the small positive epsilon in the angular-distance
weighting denominator (spec section 4.6). -/
def EPS : ℚ := 1 / 1000000000

/-- Modelled from the spec: error taxonomy of section 7 (the `SIM_ERROR`
categories of the missing core). -/
inductive ApError where
  | unknownFormat
  | fileRead
  | parseFail
  | rangeInvariant
  | unsupportedFrequency
  | channelMissing
deriving DecidableEq, Repr

/-- Modelled from the spec: `AntennaGainParameters`, the inputs of a gain
query (spec section 3, README "核心数据结构"). -/
structure AntennaGainParameters where
  azim_ : ℚ
  elev_ : ℚ
  hbw_ : ℚ
  vbw_ : ℚ
  refGain_ : ℚ
  firstLobe_ : ℚ
  backLobe_ : ℚ
  freq_ : ℚ
  weighting_ : Bool
  delta_ : Bool
deriving DecidableEq, Repr

/-- Modelled from the spec: `angFixPI`, wrapping an angle into the canonical
azimuth domain: the unique representative of `x` modulo `2 * PI` lying in
`(-PI, PI]` (spec section 4.1). -/
def angFixPI (x : ℚ) : ℚ :=
  x - 2 * PI * ((⌈(x - PI) / (2 * PI)⌉ : ℤ) : ℚ)

/-- Modelled from the spec: elevation normalization, wrapping to `(-PI, PI]`
and then reflecting past the poles into `[-PI/2, PI/2]` (spec section 4.1). -/
def angFixPI2 (x : ℚ) : ℚ :=
  let e := angFixPI x
  if PI / 2 < e then PI - e
  else if e < -(PI / 2) then -PI - e
  else e

/-- A plain list of keys is strictly ascending. -/
def ascendingQ : List ℚ → Bool
  | [] => true
  | [_] => true
  | k1 :: k2 :: rest => decide (k1 < k2) && ascendingQ (k2 :: rest)

/-- Modelled from the spec: 1-D ordered-table lookup of the missing
`InterpTable` (spec section 4.2): bisection with clamping to the endpoints
and linear interpolation on the bracketing pair. -/
def lookupR : List (ℚ × ℚ) → ℚ → ℚ
  | [], _ => SMALL_DB
  | [(_, v)], _ => v
  | (k1, v1) :: (k2, v2) :: rest, x =>
    if x ≤ k1 then v1
    else if x ≤ k2 then v1 + (v2 - v1) * (x - k1) / (k2 - k1)
    else lookupR ((k2, v2) :: rest) x

/-- Modelled from the spec: combination of separate azimuth and elevation
samples (spec section 4.6): additive in dB, or blended by angular distance
from boresight when `weighting` is set. -/
def combineAzEl (w : Bool) (az el gA gE : ℚ) : ℚ :=
  if w then
    let wa := |el| / (|az| + |el| + EPS)
    wa * gA + (1 - wa) * gE
  else gA + gE

/-- Modelled from the spec: the Gauss model's dB shape
`-(ln 2) * ((az/(hbw/2))^2 + (el/(vbw/2))^2)` on normalized angles
(spec section 4.3). -/
def gaussShape (q : AntennaGainParameters) : ℚ :=
  -LN2 * ((angFixPI q.azim_ / (q.hbw_ / 2)) ^ 2 +
          (angFixPI2 q.elev_ / (q.vbw_ / 2)) ^ 2)

/-- Modelled from the spec: `AntennaPatternGauss::gain` — the Gauss shape up
to the 3-dB contour, beyond it tapered down no further than the first
side-lobe level, and clamped to at least the back lobe behind the antenna
(spec section 4.3). -/
def gaussGain (q : AntennaGainParameters) : ℚ :=
  let az := angFixPI q.azim_
  let g0 := if -3 ≤ gaussShape q then q.refGain_ + gaussShape q
            else q.refGain_ + max (gaussShape q) q.firstLobe_
  if PI / 2 < |az| then max g0 q.backLobe_ else g0

/-- Modelled from the spec: the tabulated pattern state of
`AntennaPatternTable` — validity flag, angle-unit and symmetry codes from the
`.pat` header, and the azimuth/elevation sample tables in radians/dB. -/
structure TablePattern where
  valid : Bool
  beamwidthUnits : Bool
  symmetry : ℕ
  azim : List (ℚ × ℚ)
  elev : List (ℚ × ℚ)
deriving DecidableEq, Repr

/-- Modelled from the spec: tabulated `gain` (spec section 4.4): normalize
the angles, look both tables up, combine per section 4.6, offset by the
reference gain and clamp to the sentinel; an invalid pattern answers the
sentinel directly. -/
def tableGain (t : TablePattern) (q : AntennaGainParameters) : ℚ :=
  if t.valid = false then SMALL_DB
  else
    let az := angFixPI q.azim_
    let el := angFixPI2 q.elev_
    max SMALL_DB (q.refGain_ +
      combineAzEl q.weighting_ az el (lookupR t.azim az) (lookupR t.elev el))

/-- Modelled from the spec: the polymorphic pattern handle over the analytic
Omni and Gauss models and the tabulated model (spec section 3). -/
inductive Pattern where
  | omni
  | gauss
  | table (t : TablePattern)
deriving DecidableEq, Repr

/-- Modelled from the spec: virtual `gain` dispatch. The Omni model's gain is
the caller's reference gain in every direction (README: "全向型 — 各个方向增益相同"). -/
def gainPattern : Pattern → AntennaGainParameters → ℚ
  | .omni, q => q.refGain_
  | .gauss, q => gaussGain q
  | .table t, q => tableGain t q

/-- Modelled from the spec: clamped linear interpolation over a uniform real
grid `minK, minK + step, ...` as used by the missing CRUISE and Monopulse
query paths. -/
def uni1Q (minK step : ℚ) (vs : List ℚ) (x : ℚ) : ℚ :=
  match vs with
  | [] => SMALL_DB
  | [v] => v
  | v :: _ :: _ =>
    let t := (x - minK) / step
    if t ≤ 0 then v
    else if (vs.length : ℚ) - 1 ≤ t then vs.getLastD SMALL_DB
    else
      let i := (⌊t⌋).toNat
      vs.getD i SMALL_DB +
        (vs.getD (i + 1) SMALL_DB - vs.getD i SMALL_DB) * (t - (⌊t⌋ : ℚ))

/-- Componentwise linear interpolation of complex `(re, im)` pairs
(spec section 9: a plain pair with componentwise linear ops). -/
def lerpC (a b : ℚ × ℚ) (t : ℚ) : ℚ × ℚ :=
  (a.1 + (b.1 - a.1) * t, a.2 + (b.2 - a.2) * t)

/-- Clamped linear interpolation of complex samples over a uniform grid. -/
def uni1C (minK step : ℚ) (vs : List (ℚ × ℚ)) (x : ℚ) : ℚ × ℚ :=
  match vs with
  | [] => (0, 0)
  | [v] => v
  | v :: _ :: _ =>
    let t := (x - minK) / step
    if t ≤ 0 then v
    else if (vs.length : ℚ) - 1 ≤ t then vs.getLastD (0, 0)
    else
      let i := (⌊t⌋).toNat
      lerpC (vs.getD i (0, 0)) (vs.getD (i + 1) (0, 0)) (t - (⌊t⌋ : ℚ))

/-- Modelled from the spec: 2-D bilinear complex interpolation over the
`(az, el)` grid of a Monopulse block (spec section 4.4), as nested 1-D
interpolations. -/
def uni2C (azMin azStep elMin elStep : ℚ) (grid : List (List (ℚ × ℚ)))
    (az el : ℚ) : ℚ × ℚ :=
  uni1C azMin azStep (grid.map (fun row => uni1C elMin elStep row el)) az

/-- Modelled from the spec: frequency-row lookup of the missing CRUISE query
path — the nearest row at or outside the ends of the frequency axis, linear
interpolation between the bracketing rows strictly inside, with `interp`
sampling one row at the query angle (spec section 4.4). -/
def freqLookup (interp : List ℚ → ℚ) : List ℚ → List (List ℚ) → ℚ → ℚ
  | [], _, _ => SMALL_DB
  | _ :: _, [], _ => SMALL_DB
  | [_], r1 :: _, _ => interp r1
  | f1 :: f2 :: fr, r1 :: r2 :: rr, f =>
    if f ≤ f1 then interp r1
    else if f ≤ f2 then
      interp r1 + (interp r2 - interp r1) * (f - f1) / (f2 - f1)
    else freqLookup interp (f2 :: fr) (r2 :: rr) f
  | _ :: _ :: _, [_], _ => SMALL_DB

/-- Modelled from the spec: one angular block of a `.cru` file — angle-grid
limits, the frequency axis and one voltage-gain row per frequency
(spec section 4.4). -/
structure CruiseSection where
  minAng : ℚ
  stepAng : ℚ
  freqs : List ℚ
  rows : List (List ℚ)
deriving DecidableEq, Repr

/-- Modelled from the spec: the azimuth and elevation blocks of a CRUISE
pattern. -/
structure CruiseData where
  az : CruiseSection
  el : CruiseSection
deriving DecidableEq, Repr

/-- Modelled from the spec: `AntennaPatternCRUISE` state — construction
validity flag plus the parsed data. -/
structure CruiseState where
  valid : Bool
  data : CruiseData
deriving DecidableEq, Repr

/-- The interpolated voltage gain of one CRUISE block at a query frequency
and normalized angle. -/
def sectionVoltage (s : CruiseSection) (f ang : ℚ) : ℚ :=
  freqLookup (fun row => uni1Q s.minAng s.stepAng row ang) s.freqs s.rows f

/-- Modelled from the spec: `AntennaPatternCRUISE::gain` — stored voltage
gains are squared into powers and converted to dB by the external `l2d`
helper (`10 * log10`), the azimuth and elevation results are combined per
section 4.6 and offset by the reference gain; an invalid pattern answers the
sentinel. -/
def cruiseGain (l2d : ℚ → ℚ) (st : CruiseState) (q : AntennaGainParameters) : ℚ :=
  if st.valid = false then SMALL_DB
  else
    q.refGain_ + combineAzEl q.weighting_ (angFixPI q.azim_) (angFixPI2 q.elev_)
      (l2d ((sectionVoltage st.data.az q.freq_ (angFixPI q.azim_)) ^ 2))
      (l2d ((sectionVoltage st.data.el q.freq_ (angFixPI2 q.elev_)) ^ 2))

/-- Modelled from the spec: one Monopulse block (`sum` or `diff`) — its own
frequency, azimuth and elevation grids and a complex sample cube indexed by
frequency, azimuth, elevation (spec section 4.4). -/
structure MonoChannel where
  freqMin : ℚ
  freqMax : ℚ
  freqStep : ℚ
  azMin : ℚ
  azMax : ℚ
  azStep : ℚ
  elMin : ℚ
  elMax : ℚ
  elStep : ℚ
  rows : List (List (List (ℚ × ℚ)))
deriving DecidableEq, Repr

/-- Modelled from the spec: the `sum` and `diff` blocks of a Monopulse
pattern. -/
structure MonopulseData where
  sum : MonoChannel
  diff : MonoChannel
deriving DecidableEq, Repr

/-- Modelled from the spec: `AntennaPatternMonopulse` state — construction
validity flag plus the parsed data. -/
structure MonopulseState where
  valid : Bool
  data : MonopulseData
deriving DecidableEq, Repr

/-- Modelled from the spec: `AntennaPatternMonopulse::gain`. The block is
selected by `delta`; a query frequency outside the block's range yields the
sentinel together with an `UnsupportedFrequency` record for the handle's
last-error slot (the model of the `SIM_ERROR` channel, spec section 9) —
the call returns a value in every case. In range, the complex sample is
bilinearly interpolated in `(az, el)` per frequency row, linearly blended in
frequency, and converted to dB (`20 log10 |z| = l2d (re^2 + im^2)` for
`l2d = 10 * log10`) plus the reference gain. -/
def monopulseGain (l2d : ℚ → ℚ) (st : MonopulseState)
    (q : AntennaGainParameters) : ℚ × Option ApError :=
  if st.valid = false then (SMALL_DB, none)
  else
    let ch := if q.delta_ then st.data.diff else st.data.sum
    if q.freq_ < ch.freqMin ∨ ch.freqMax < q.freq_ then
      (SMALL_DB, some ApError.unsupportedFrequency)
    else
      let az := angFixPI q.azim_
      let el := angFixPI2 q.elev_
      let z := uni1C ch.freqMin ch.freqStep
        (ch.rows.map (fun g => uni2C ch.azMin ch.azStep ch.elMin ch.elStep g az el))
        q.freq_
      (q.refGain_ + l2d (z.1 ^ 2 + z.2 ^ 2), none)

theorem pi_pos : (0 : ℚ) < PI := by norm_num [PI]

theorem angFixPI_eq_self (x : ℚ) (h1 : -PI < x) (h2 : x ≤ PI) : angFixPI x = x := by
  have hpos : (0 : ℚ) < 2 * PI := by norm_num [PI]
  have hc : ⌈(x - PI) / (2 * PI)⌉ = 0 := by
    rw [Int.ceil_eq_zero_iff, Set.mem_Ioc]
    constructor
    · rw [lt_div_iff₀ hpos]
      linarith
    · exact div_nonpos_of_nonpos_of_nonneg (by linarith) (le_of_lt hpos)
  unfold angFixPI
  rw [hc]
  push_cast
  ring

theorem angFixPI2_eq_self (x : ℚ) (h1 : -(PI / 2) ≤ x) (h2 : x ≤ PI / 2) :
    angFixPI2 x = x := by
  have hp : (0 : ℚ) < PI := pi_pos
  have hx : angFixPI x = x := angFixPI_eq_self x (by linarith) (by linarith)
  simp only [angFixPI2, hx]
  rw [if_neg (by linarith), if_neg (by linarith)]

/-- C6: the Omni analytic model is constant in azimuth and elevation and
returns the query's reference gain; in particular with refGain 20,
az 1.3, el -0.2 the gain is exactly 20 dB. -/
theorem c6_omni_constant :
    (∀ q : AntennaGainParameters, gainPattern Pattern.omni q = q.refGain_) ∧
    gainPattern Pattern.omni ⟨13 / 10, -(1 / 5), 1, 1, 20, -13, -30, 0, false, false⟩ = 20 :=
  ⟨fun _ => rfl, rfl⟩

/-- C8: a tabulated pattern combines the azimuth sample `gA` and elevation
sample `gE` additively (`gA + gE`) when `weighting` is off, and as
`wa * gA + (1 - wa) * gE` with `wa = |el| / (|az| + |el| + EPS)` when
`weighting` is on. -/
theorem c8_weighting :
    (∀ (t : TablePattern) (q : AntennaGainParameters), t.valid = true →
      tableGain t q = max SMALL_DB (q.refGain_ +
        combineAzEl q.weighting_ (angFixPI q.azim_) (angFixPI2 q.elev_)
          (lookupR t.azim (angFixPI q.azim_)) (lookupR t.elev (angFixPI2 q.elev_)))) ∧
    (∀ az el gA gE : ℚ, combineAzEl false az el gA gE = gA + gE) ∧
    (∀ az el gA gE : ℚ, combineAzEl true az el gA gE =
      |el| / (|az| + |el| + EPS) * gA + (1 - |el| / (|az| + |el| + EPS)) * gE) := by
  refine ⟨?_, fun _ _ _ _ => rfl, fun _ _ _ _ => rfl⟩
  intro t q h
  simp [tableGain, h]

theorem c8_witness :
    tableGain ⟨true, false, 1, [(0, 1), (1, 2)], [(0, 3), (1, 4)]⟩
        ⟨0, 0, 1, 1, 5, -13, -30, 0, true, false⟩ =
      max SMALL_DB (5 + combineAzEl true (angFixPI 0) (angFixPI2 0)
        (lookupR [(0, 1), (1, 2)] (angFixPI 0))
        (lookupR [(0, 3), (1, 4)] (angFixPI2 0))) :=
  c8_weighting.1 _ _ rfl

/-- C4: a gain query against a valid Monopulse pattern whose frequency lies
outside the selected channel's `[freqMin, freqMax]` range returns the
sentinel together with an `UnsupportedFrequency` record for the last-error
slot; the (total) call returns normally. -/
theorem c4_monopulse_unsupported_freq (l2d : ℚ → ℚ) (st : MonopulseState)
    (q : AntennaGainParameters) (hv : st.valid = true)
    (hf : q.freq_ < (if q.delta_ then st.data.diff else st.data.sum).freqMin ∨
          (if q.delta_ then st.data.diff else st.data.sum).freqMax < q.freq_) :
    monopulseGain l2d st q = (SMALL_DB, some ApError.unsupportedFrequency) := by
  simp only [monopulseGain, hv, Bool.true_eq_false, if_false]
  rw [if_pos hf]

theorem c4_witness :
    monopulseGain (fun x => x)
      ⟨true, ⟨⟨8, 12, 1, 0, 1, 1, 0, 1, 1, []⟩, ⟨8, 12, 1, 0, 1, 1, 0, 1, 1, []⟩⟩⟩
      ⟨0, 0, 1, 1, 0, -13, -30, 20, false, false⟩ =
      (SMALL_DB, some ApError.unsupportedFrequency) :=
  c4_monopulse_unsupported_freq _ _ _ rfl (by decide)

/-- C5: within `|azim| ≤ PI/2`, inside the 3-dB contour the Gauss model
returns `refGain + (-(ln 2) * ((az/(hbw/2))^2 + (el/(vbw/2))^2))` in dB;
beyond the contour the value is tapered down no further than the first
side lobe; for `PI/2 < |azim|` the result is clamped to at least the back
lobe. Stated on queries already in the canonical angle domain. -/
theorem c5_gauss_shape (q : AntennaGainParameters)
    (h1 : -PI < q.azim_) (h2 : q.azim_ ≤ PI)
    (h3 : -(PI / 2) ≤ q.elev_) (h4 : q.elev_ ≤ PI / 2) :
    (LN2 * ((q.azim_ / (q.hbw_ / 2)) ^ 2 + (q.elev_ / (q.vbw_ / 2)) ^ 2) ≤ 3 →
      |q.azim_| ≤ PI / 2 →
      gaussGain q = q.refGain_ +
        -LN2 * ((q.azim_ / (q.hbw_ / 2)) ^ 2 + (q.elev_ / (q.vbw_ / 2)) ^ 2)) ∧
    (¬ LN2 * ((q.azim_ / (q.hbw_ / 2)) ^ 2 + (q.elev_ / (q.vbw_ / 2)) ^ 2) ≤ 3 →
      |q.azim_| ≤ PI / 2 →
      gaussGain q = q.refGain_ +
        max (-LN2 * ((q.azim_ / (q.hbw_ / 2)) ^ 2 + (q.elev_ / (q.vbw_ / 2)) ^ 2))
          q.firstLobe_) ∧
    (PI / 2 < |q.azim_| → q.backLobe_ ≤ gaussGain q) := by
  have haz := angFixPI_eq_self q.azim_ h1 h2
  have hel := angFixPI2_eq_self q.elev_ h3 h4
  have hshape : gaussShape q =
      -LN2 * ((q.azim_ / (q.hbw_ / 2)) ^ 2 + (q.elev_ / (q.vbw_ / 2)) ^ 2) := by
    unfold gaussShape
    rw [haz, hel]
  refine ⟨?_, ?_, ?_⟩
  · intro hin hle
    simp only [gaussGain, haz, hshape]
    rw [if_neg (not_lt.2 hle), if_pos (by linarith)]
  · intro hout hle
    simp only [gaussGain, haz, hshape]
    rw [if_neg (not_lt.2 hle), if_neg (by intro hcon; apply hout; linarith)]
  · intro hgt
    simp only [gaussGain, haz]
    rw [if_pos hgt]
    exact le_max_right _ _

theorem c5_witness :
    gaussGain ⟨0, 0, 1, 1, 5, -13, -30, 0, false, false⟩ =
      5 + -LN2 * ((0 / (1 / 2)) ^ 2 + (0 / (1 / 2)) ^ 2) :=
  (c5_gauss_shape ⟨0, 0, 1, 1, 5, -13, -30, 0, false, false⟩
      (by norm_num [PI]) (by norm_num [PI]) (by norm_num [PI]) (by norm_num [PI])).1
    (by norm_num) (by norm_num [PI])

theorem ascQ_tail (a : ℚ) (l : List ℚ) (h : ascendingQ (a :: l) = true) :
    ascendingQ l = true := by
  cases l with
  | nil => rfl
  | cons b r =>
    have h2 : a < b ∧ ascendingQ (b :: r) = true := by
      simpa [ascendingQ, Bool.and_eq_true, decide_eq_true_eq] using h
    exact h2.2

theorem ascQ_split (a b : ℚ) (r : List ℚ) (h : ascendingQ (a :: b :: r) = true) :
    a < b ∧ ascendingQ (b :: r) = true := by
  simpa [ascendingQ, Bool.and_eq_true, decide_eq_true_eq] using h

theorem ascQ_head_le_get (l : List ℚ) : ∀ (a : ℚ) (i : ℕ) (x : ℚ),
    ascendingQ (a :: l) = true → (a :: l).get? i = some x → a ≤ x := by
  induction l with
  | nil =>
    intro a i x _ hg
    cases i with
    | zero =>
      simp at hg
      exact le_of_eq hg
    | succ j => simp at hg
  | cons b r ih =>
    intro a i x h hg
    have h2 := ascQ_split a b r h
    cases i with
    | zero =>
      simp at hg
      linarith [le_of_eq hg]
    | succ j =>
      have hg2 : (b :: r).get? j = some x := by simpa using hg
      have := ih b j x h2.2 hg2
      linarith

theorem ascQ_head_le_last (l : List ℚ) : ∀ (a c : ℚ),
    ascendingQ (a :: l) = true → (a :: l).getLast? = some c → a ≤ c := by
  induction l with
  | nil =>
    intro a c _ hl
    simp at hl
    linarith
  | cons b r ih =>
    intro a c h hl
    have h2 := ascQ_split a b r h
    rw [List.getLast?_cons_cons] at hl
    have := ih b c h2.2 hl
    linarith

theorem ascQ_head_lt_last (a b : ℚ) (r : List ℚ) (c : ℚ)
    (h : ascendingQ (a :: b :: r) = true) (hl : (a :: b :: r).getLast? = some c) :
    a < c := by
  have h2 := ascQ_split a b r h
  rw [List.getLast?_cons_cons] at hl
  have := ascQ_head_le_last r b c h2.2 hl
  linarith

theorem freqLookup_low (interp : List ℚ → ℚ) (f1 : ℚ) (fr : List ℚ) (r1 : List ℚ)
    (rr : List (List ℚ)) (f : ℚ) (hlen : fr.length = rr.length) (hf : f ≤ f1) :
    freqLookup interp (f1 :: fr) (r1 :: rr) f = interp r1 := by
  cases fr with
  | nil =>
    cases rr with
    | nil => simp [freqLookup]
    | cons _ _ => simp at hlen
  | cons f2 fr2 =>
    cases rr with
    | nil => simp at hlen
    | cons r2 rr2 => simp [freqLookup, hf]

theorem freqLookup_high (interp : List ℚ → ℚ) :
    ∀ (fs : List ℚ) (rs : List (List ℚ)) (f fn : ℚ) (rl : List ℚ),
      ascendingQ fs = true → fs.length = rs.length →
      fs.getLast? = some fn → rs.getLast? = some rl → fn ≤ f →
      freqLookup interp fs rs f = interp rl := by
  intro fs
  induction fs with
  | nil =>
    intro rs f fn rl _ _ hl
    simp at hl
  | cons f1 fr ih =>
    intro rs f fn rl hasc hlen hlf hlr hf
    cases rs with
    | nil => simp at hlen
    | cons r1 rr =>
      cases fr with
      | nil =>
        cases rr with
        | cons _ _ => simp at hlen
        | nil =>
          simp at hlr
          subst hlr
          simp [freqLookup]
      | cons f2 fr2 =>
        cases rr with
        | nil => simp at hlen
        | cons r2 rr2 =>
          have hab := ascQ_split f1 f2 fr2 hasc
          rw [List.getLast?_cons_cons] at hlf hlr
          have hf2n : f2 ≤ fn := ascQ_head_le_last fr2 f2 fn hab.2 hlf
          have hn1 : ¬ f ≤ f1 := by linarith
          simp only [freqLookup]
          rw [if_neg hn1]
          by_cases h2 : f ≤ f2
          · have hff2 : f = f2 := le_antisymm h2 (le_trans hf2n hf)
            cases fr2 with
            | cons f3 fr3 =>
              exfalso
              have := ascQ_head_lt_last f2 f3 fr3 fn hab.2 hlf
              linarith
            | nil =>
              cases rr2 with
              | cons _ _ => simp at hlen
              | nil =>
                simp at hlr
                subst hlr
                rw [if_pos h2, hff2]
                have hne : f2 - f1 ≠ 0 := by
                  have := hab.1
                  intro hc
                  have : f2 = f1 := by linarith
                  linarith [hab.1]
                field_simp
          · rw [if_neg h2]
            exact ih (r2 :: rr2) f fn rl hab.2 (by simpa using hlen) hlf hlr hf

theorem freqLookup_bracket (interp : List ℚ → ℚ) :
    ∀ (i : ℕ) (fs : List ℚ) (rs : List (List ℚ)) (f fi fj : ℚ) (ri rj : List ℚ),
      ascendingQ fs = true → fs.length = rs.length →
      fs.get? i = some fi → fs.get? (i + 1) = some fj →
      rs.get? i = some ri → rs.get? (i + 1) = some rj →
      fi < f → f < fj →
      freqLookup interp fs rs f =
        interp ri + (interp rj - interp ri) * (f - fi) / (fj - fi) := by
  intro i
  induction i with
  | zero =>
    intro fs rs f fi fj ri rj hasc hlen hgi hgj hri hrj hlo hhi
    cases fs with
    | nil => simp at hgi
    | cons f1 fr =>
      cases fr with
      | nil => simp at hgj
      | cons f2 fr2 =>
        cases rs with
        | nil => simp at hlen
        | cons r1 rr =>
          cases rr with
          | nil => simp at hlen
          | cons r2 rr2 =>
            simp at hgi hgj hri hrj
            subst hgi
            subst hgj
            subst hri
            subst hrj
            simp only [freqLookup]
            rw [if_neg (by linarith), if_pos (le_of_lt hhi)]
  | succ j ih =>
    intro fs rs f fi fj ri rj hasc hlen hgi hgj hri hrj hlo hhi
    cases fs with
    | nil => simp at hgi
    | cons f1 fr =>
      cases rs with
      | nil => simp at hlen
      | cons r1 rr =>
        have hgi2 : fr.get? j = some fi := by simpa using hgi
        have hgj2 : fr.get? (j + 1) = some fj := by simpa using hgj
        have hri2 : rr.get? j = some ri := by simpa using hri
        have hrj2 : rr.get? (j + 1) = some rj := by simpa using hrj
        cases fr with
        | nil => simp at hgi2
        | cons f2 fr2 =>
          cases rr with
          | nil => simp at hlen
          | cons r2 rr2 =>
            have hab := ascQ_split f1 f2 fr2 hasc
            have h2fi : f2 ≤ fi := ascQ_head_le_get fr2 f2 j fi hab.2 hgi2
            simp only [freqLookup]
            rw [if_neg (by linarith), if_neg (by linarith)]
            exact ih (f2 :: fr2) (r2 :: rr2) f fi fj ri rj hab.2
              (by simpa using hlen) hgi2 hgj2 hri2 hrj2 hlo hhi

/-- C7: a CRUISE pattern stores voltage gains that `gain` squares into powers
and converts to dB through the external `10 log10` helper; a query frequency
at or below the minimum of the frequency axis uses the first frequency row, a
frequency at or above the maximum uses the last row (clamping), and a
frequency strictly between two axis entries is linearly interpolated between
the two bracketing frequency rows. -/
theorem c7_cruise_freq :
    (∀ (l2d : ℚ → ℚ) (st : CruiseState) (q : AntennaGainParameters),
      st.valid = true →
      cruiseGain l2d st q = q.refGain_ +
        combineAzEl q.weighting_ (angFixPI q.azim_) (angFixPI2 q.elev_)
          (l2d ((sectionVoltage st.data.az q.freq_ (angFixPI q.azim_)) ^ 2))
          (l2d ((sectionVoltage st.data.el q.freq_ (angFixPI2 q.elev_)) ^ 2))) ∧
    (∀ (s : CruiseSection) (f ang f1 : ℚ) (fr : List ℚ) (r1 : List ℚ)
        (rr : List (List ℚ)),
      s.freqs = f1 :: fr → s.rows = r1 :: rr → fr.length = rr.length → f ≤ f1 →
      sectionVoltage s f ang = uni1Q s.minAng s.stepAng r1 ang) ∧
    (∀ (s : CruiseSection) (f fn ang : ℚ) (rl : List ℚ),
      ascendingQ s.freqs = true → s.freqs.length = s.rows.length →
      s.freqs.getLast? = some fn → s.rows.getLast? = some rl → fn ≤ f →
      sectionVoltage s f ang = uni1Q s.minAng s.stepAng rl ang) ∧
    (∀ (s : CruiseSection) (i : ℕ) (f fi fj ang : ℚ) (ri rj : List ℚ),
      ascendingQ s.freqs = true → s.freqs.length = s.rows.length →
      s.freqs.get? i = some fi → s.freqs.get? (i + 1) = some fj →
      s.rows.get? i = some ri → s.rows.get? (i + 1) = some rj →
      fi < f → f < fj →
      sectionVoltage s f ang = uni1Q s.minAng s.stepAng ri ang +
        (uni1Q s.minAng s.stepAng rj ang - uni1Q s.minAng s.stepAng ri ang) *
          (f - fi) / (fj - fi)) := by
  refine ⟨?_, ?_, ?_, ?_⟩
  · intro l2d st q hv
    simp [cruiseGain, hv]
  · intro s f ang f1 fr r1 rr hfs hrs hlen hf
    unfold sectionVoltage
    rw [hfs, hrs]
    exact freqLookup_low _ f1 fr r1 rr f hlen hf
  · intro s f fn ang rl hasc hlen hlf hlr hf
    exact freqLookup_high _ s.freqs s.rows f fn rl hasc hlen hlf hlr hf
  · intro s i f fi fj ang ri rj hasc hlen hgi hgj hri hrj hlo hhi
    exact freqLookup_bracket _ i s.freqs s.rows f fi fj ri rj hasc hlen
      hgi hgj hri hrj hlo hhi

theorem c7_witness :
    sectionVoltage ⟨0, 1, [8, 10], [[1, 1], [2, 2]]⟩ 7 0 = uni1Q 0 1 [1, 1] 0 :=
  c7_cruise_freq.2.1 ⟨0, 1, [8, 10], [[1, 1], [2, 2]]⟩ 7 0 8 [10] [1, 1] [[2, 2]]
    rfl rfl rfl (by norm_num)

end AntennaPattern
